import Mathlib

/-!
Verification of `pyastro16.py`, a small multiprocessing tutorial module.

The module has five functions:
  * `scaled_sin(theta, scale)`: returns `scale * np.sin(theta)`.
  * `counter_init(counter)`: installs the shared counter into the worker's
    module-global state (`gbl_counter`).
  * `counter(arg)`: `with gbl_counter.get_lock(): gbl_counter.value += 1`.
  * `counter_nolock(arg)`: `gbl_counter.value += 1` without the lock.
  * `random_init(output, counter)`: installs the counter, reinterprets the flat
    shared `RawArray` `output[0]` as a 2-D view with shape `output[1]`, and
    caches the column count `output[1][1]` as `gbl_noutput`.
  * `random(idx, par)`: `gbl_output[idx, :] = np.random.zipf(par, gbl_noutput)`
    followed by the same locked increment as `counter`.

Two embeddings are developed.

The first is a micro-step interleaving semantics for the shared counter.
A Python-level increment is split into the atomic actions actually performed
on the shared `Value`: for the locked variant `acquire`, `load` (read
`.value` into a register), `store` (write register + 1 back), `release`;
for the unlocked variant just `load`, `store`.  A system state carries the
shared integer, the lock owner, and one register/program pair per worker
process; a schedule is a list of process indices and a step runs the next
micro-instruction of the chosen process (a blocked `acquire` is a no-op).

The second is a direct state-passing embedding of the five functions: the
worker-local module globals (`gbl_counter`, `gbl_output`, `gbl_noutput`)
become an explicit `Globals` record, the process-shared resources (counter
value, its lock, the flat `RawArray` contents, the numpy random stream)
become an explicit `Shared` record, and Python exceptions become an
`Option PyErr` component of the result.  Numpy behaviour that the module
relies on is embedded faithfully: negative row indices in `[-rows, -1]`
wrap around, other out-of-range indices raise `IndexError`, a reshape with
mismatched size raises `ValueError`, assignment of a length-`n` vector to a
length-`cols` row slice requires `n = cols` (or broadcasts when `n = 1`),
and the right-hand side of the slice assignment (the draw, which advances
the random stream) is evaluated before the target row is resolved.
`np.random.zipf` is an external collaborator; it is modelled as reading
successive values from an abstract stream `rng : Nat → Int`, and the fact
that Zipf samples are integers `≥ 1` (the distribution's support) enters
theorems as a hypothesis on that stream.  `np.sin` is likewise modelled as
an abstract function argument.
-/

set_option linter.unusedVariables false

namespace Pyastro16

/-- Atomic actions a worker performs on the shared counter: `acquire` and
`release` of the mutual-exclusion lock, `load` of `.value` into a
process-local register, and `store` of register + 1 back into `.value`. -/
inductive Instr where
  | acquire : Instr
  | release : Instr
  | load : Instr
  | store : Instr
deriving DecidableEq, Repr

/-- One worker process: its remaining micro-instructions and its register
(the last value it read from the shared counter). -/
structure Proc where
  prog : List Instr
  reg : Int
deriving DecidableEq, Repr

/-- State of the whole process group: the shared counter value, the owner of
the counter's lock (`none` when free), and the per-process states. -/
structure SysState where
  value : Int
  lock : Option Nat
  procs : List Proc
deriving DecidableEq, Repr

/-- Run one micro-step of process `i`.  An `acquire` while the lock is held,
a step of a finished process, or an out-of-range index leaves the state
unchanged (the process is blocked or there is nothing to do). -/
def stepFn (s : SysState) (i : Nat) : SysState :=
  match s.procs[i]? with
  | none => s
  | some p =>
    match p.prog with
    | [] => s
    | Instr.acquire :: rest =>
        if s.lock = none then
          { value := s.value, lock := some i, procs := s.procs.set i ⟨rest, p.reg⟩ }
        else s
    | Instr.release :: rest =>
        if s.lock = some i then
          { value := s.value, lock := none, procs := s.procs.set i ⟨rest, p.reg⟩ }
        else s
    | Instr.load :: rest =>
        { value := s.value, lock := s.lock, procs := s.procs.set i ⟨rest, s.value⟩ }
    | Instr.store :: rest =>
        { value := p.reg + 1, lock := s.lock, procs := s.procs.set i ⟨rest, p.reg⟩ }

/-- Run a whole schedule (a list of process indices), one micro-step each. -/
def run (s : SysState) : List Nat → SysState
  | [] => s
  | i :: sched => run (stepFn s i) sched

/-- Micro-program of `n` calls to `counter` (the locked increment):
each call is `acquire; load; store; release`. -/
def lockedProgN : Nat → List Instr
  | 0 => []
  | n + 1 => Instr.acquire :: Instr.load :: Instr.store :: Instr.release :: lockedProgN n

/-- Micro-program of `n` calls to `counter_nolock` (the unlocked increment):
each call is `load; store` with no locking. -/
def nolockProgN : Nat → List Instr
  | 0 => []
  | n + 1 => Instr.load :: Instr.store :: nolockProgN n

/-- Which of the two increment functions a call uses. -/
inductive CallKind where
  | locked : CallKind
  | nolocked : CallKind
deriving DecidableEq, Repr

/-- Micro-program of a single call of either kind. -/
def callProg : CallKind → List Instr
  | CallKind.locked => [Instr.acquire, Instr.load, Instr.store, Instr.release]
  | CallKind.nolocked => [Instr.load, Instr.store]

/-- Micro-program of a sequence of calls, mixing the two kinds. -/
def seqProg : List CallKind → List Instr
  | [] => []
  | c :: cs => callProg c ++ seqProg cs

/-- Schedule that runs a single process (index 0) through a mixed call
sequence to completion, one micro-step per instruction. -/
def seqSched : List CallKind → List Nat
  | [] => []
  | CallKind.locked :: cs => 0 :: 0 :: 0 :: 0 :: seqSched cs
  | CallKind.nolocked :: cs => 0 :: 0 :: seqSched cs

/-- Schedule that lets process `j` alone perform `n` unlocked increments
(two micro-steps per increment). -/
def soloSched (j : Nat) : Nat → List Nat
  | 0 => []
  | n + 1 => j :: j :: soloSched j n

/-- Number of increments a program still has to commit: its pending `store`
instructions. -/
def pending (p : List Instr) : Nat := p.count Instr.store

/-- Total number of increments the whole system still has to commit. -/
def totalPending (s : SysState) : Nat := (s.procs.map fun p => pending p.prog).sum

/-- Initial system: counter at `v0`, lock free, one process per entry of
`ks`, where process `i` will perform `ks[i]` locked increments. -/
def initLocked (v0 : Int) (ks : List Nat) : SysState :=
  { value := v0, lock := none, procs := ks.map fun k => ⟨lockedProgN k, 0⟩ }

/-- Initial system: counter at `v0`, lock free, one process per entry of
`ks`, where process `i` will perform `ks[i]` unlocked increments. -/
def initNolock (v0 : Int) (ks : List Nat) : SysState :=
  { value := v0, lock := none, procs := ks.map fun k => ⟨nolockProgN k, 0⟩ }

/-- Every process has run its whole program: the execution is complete. -/
def AllDone (s : SysState) : Prop := ∀ p ∈ s.procs, p.prog = []

instance : DecidablePred AllDone := fun s => by
  unfold AllDone
  infer_instance

/-- A program that is a whole number of locked-increment calls. -/
def IsLockedBlocks (p : List Instr) : Prop := ∃ n, p = lockedProgN n

/-- A program that is a whole number of unlocked-increment calls. -/
def IsNolockBlocks (p : List Instr) : Prop := ∃ n, p = nolockProgN n

/-- Shape of the one process that currently holds the lock: it is somewhere
strictly inside a locked-increment call, and once it has loaded the shared
value its register still equals the shared value (nobody else can store
while it holds the lock). -/
def MidPhase (v : Int) (p : Proc) : Prop :=
  (∃ rest, p.prog = Instr.load :: Instr.store :: Instr.release :: rest ∧ IsLockedBlocks rest) ∨
  (∃ rest, p.prog = Instr.store :: Instr.release :: rest ∧ IsLockedBlocks rest ∧ p.reg = v) ∨
  (∃ rest, p.prog = Instr.release :: rest ∧ IsLockedBlocks rest)

/-- Invariant of an all-locked run with conserved quantity `c`: the shared
value plus the number of pending increments is constant, and either the lock
is free and every process sits at a call boundary, or exactly one process is
inside its critical section and everybody else sits at a call boundary. -/
def InvL (c : Int) (s : SysState) : Prop :=
  s.value + (totalPending s : Int) = c ∧
  ((s.lock = none ∧ ∀ j : Nat, ∀ p : Proc, s.procs[j]? = some p → IsLockedBlocks p.prog) ∨
   (∃ i p, s.lock = some i ∧ s.procs[i]? = some p ∧ MidPhase s.value p ∧
      ∀ j : Nat, ∀ q : Proc, j ≠ i → s.procs[j]? = some q → IsLockedBlocks q.prog))

/-- Invariant of an all-unlocked run with budget `c`: the shared value plus
the pending increments never exceeds `c`, and every process either sits at a
call boundary or is about to store a stale register that also respects the
budget.  Increments can be lost (the inequality is not an equality) because
two processes may load the same value. -/
def InvN (c : Int) (s : SysState) : Prop :=
  s.value + (totalPending s : Int) ≤ c ∧
  ∀ j : Nat, ∀ p : Proc, s.procs[j]? = some p →
    (IsNolockBlocks p.prog ∨
     ∃ rest, p.prog = Instr.store :: rest ∧ IsNolockBlocks rest ∧
       p.reg + (totalPending s : Int) ≤ c)

/-- Python exceptions that the module can surface.  `incrementError` stands
for a hypothetical failure of the increment statement itself, used to state
that the `with` block releases the lock even then. -/
inductive PyErr where
  | nameError : String → PyErr
  | indexError : PyErr
  | valueError : PyErr
  | incrementError : PyErr
deriving DecidableEq, Repr

/-- What the worker-local `gbl_output` is bound to: the flat 1-D view that
`np.ctypeslib.as_array` produces, or the 2-D view after `reshape`. -/
inductive BufView where
  | flat : BufView
  | shaped : Nat → Nat → BufView
deriving DecidableEq, Repr

/-- Worker-local module globals.  `gbl_counter` records whether the shared
counter reference has been installed; an un-installed global raises
`NameError` on use, exactly like an unbound Python module global. -/
structure Globals where
  gbl_counter : Bool
  gbl_output : Option BufView
  gbl_noutput : Option Nat
deriving DecidableEq, Repr

/-- Globals of a fresh worker process in which no initializer has run. -/
def initialGlobals : Globals :=
  { gbl_counter := false, gbl_output := none, gbl_noutput := none }

/-- Process-shared resources: the counter value, whether its lock is held,
the contents of the flat shared `RawArray`, and the numpy random stream
(an abstract source `rng` with a cursor `rngPos`). -/
structure Shared where
  counterVal : Int
  lockHeld : Bool
  raw : List Int
  rng : Nat → Int
  rngPos : Nat

/-- Embedding of `counter_init(counter)`: installs the shared counter
reference into the worker-local globals.  No shared state is touched. -/
def counter_init (g : Globals) : Globals := { g with gbl_counter := true }

/-- Embedding of `with gbl_counter.get_lock(): gbl_counter.value += 1`:
acquire the lock, attempt the increment, release the lock; when the body
raises (`incFails`), the `with` statement still releases the lock and the
exception propagates. -/
def lockedIncr (incFails : Bool) (s : Shared) : Option PyErr × Shared :=
  let s1 : Shared := { s with lockHeld := true }
  if incFails then
    (some PyErr.incrementError, { s1 with lockHeld := false })
  else
    (none, { s1 with counterVal := s1.counterVal + 1, lockHeld := false })

/-- Embedding of `counter(arg)`.  `arg` is accepted but never used.
`incFails` injects a hypothetical failure of the increment statement. -/
def counter (arg : Int) (incFails : Bool) (g : Globals) (s : Shared) : Option PyErr × Shared :=
  if g.gbl_counter then lockedIncr incFails s
  else (some (PyErr.nameError "gbl_counter"), s)

/-- Embedding of `counter_nolock(arg)`: the bare `gbl_counter.value += 1`
with no locking.  `arg` is accepted but never used. -/
def counter_nolock (arg : Int) (g : Globals) (s : Shared) : Option PyErr × Shared :=
  if g.gbl_counter then (none, { s with counterVal := s.counterVal + 1 })
  else (some (PyErr.nameError "gbl_counter"), s)

/-- Samples that `np.random.zipf(par, n)` returns at cursor position
`s.rngPos`: the next `n` values of the abstract stream. -/
def zipfSamples (s : Shared) (n : Nat) : List Int :=
  (List.range n).map fun k => s.rng (s.rngPos + k)

/-- Numpy row-index resolution for an axis of length `rows`: indices in
`[0, rows)` are used as they are, indices in `[-rows, 0)` wrap around to
`rows + idx`, and anything else is out of bounds. -/
def resolveIdx (rows : Nat) (idx : Int) : Option Nat :=
  if 0 ≤ idx then
    if idx < (rows : Int) then some idx.toNat else none
  else
    if -(rows : Int) ≤ idx then some ((rows : Int) + idx).toNat else none

/-- Numpy broadcast of a 1-D vector onto a length-`cols` row slice: the
lengths must agree, except that a single element broadcasts to the whole
row; any other length raises `ValueError`. -/
def broadcastTo (cols : Nat) (xs : List Int) : Option (List Int) :=
  if xs.length = cols then some xs
  else
    match xs with
    | [x] => some (List.replicate cols x)
    | _ => none

/-- Overwrite `xs.length` cells of the flat buffer starting at `offset`. -/
def writeRow (raw : List Int) (offset : Nat) (xs : List Int) : List Int :=
  raw.take offset ++ xs ++ raw.drop (offset + xs.length)

/-- Row `j` of the flat buffer viewed with `cols` columns. -/
def rowOf (cols : Nat) (raw : List Int) (j : Nat) : List Int :=
  (raw.drop (j * cols)).take cols

/-- Embedding of `random_init(output, counter)`.  The `RawArray` `output[0]`
lives in `s.raw`; `shape` is `output[1]`.  It installs the counter, binds
`gbl_output` to the flat view produced by `np.ctypeslib.as_array`, rebinds
it to the reshaped 2-D view (reshape raises `ValueError` when
`rows * cols` is not the length of the flat block, leaving the flat view
installed), and caches `gbl_noutput = shape.2`.  It never writes to the
buffer or to any other shared state. -/
def random_init (shape : Nat × Nat) (g : Globals) (s : Shared) :
    Option PyErr × Globals × Shared :=
  let g1 : Globals := { g with gbl_counter := true }
  let g2 : Globals := { g1 with gbl_output := some BufView.flat }
  if s.raw.length = shape.1 * shape.2 then
    (none,
     { g2 with gbl_output := some (BufView.shaped shape.1 shape.2),
               gbl_noutput := some shape.2 },
     s)
  else
    (some PyErr.valueError, g2, s)

/-- Embedding of `random(idx, par)`:
`gbl_output[idx, :] = np.random.zipf(par, gbl_noutput)` followed by the
locked increment.  Following Python evaluation order, the right-hand side
is evaluated first (reading `gbl_noutput` and advancing the random stream),
then the target row is resolved on `gbl_output`, the samples are broadcast
into the row slice, and finally the locked increment runs.  `par` only
selects the sampled distribution, which the abstract stream represents, so
it does not appear in the draw itself. -/
def random (idx : Int) (par : ℚ) (g : Globals) (s : Shared) : Option PyErr × Shared :=
  match g.gbl_noutput with
  | none => (some (PyErr.nameError "gbl_noutput"), s)
  | some n =>
    let samples := zipfSamples s n
    let s1 : Shared := { s with rngPos := s.rngPos + n }
    match g.gbl_output with
    | none => (some (PyErr.nameError "gbl_output"), s1)
    | some BufView.flat => (some PyErr.indexError, s1)
    | some (BufView.shaped rows cols) =>
      match resolveIdx rows idx with
      | none => (some PyErr.indexError, s1)
      | some r =>
        match broadcastTo cols samples with
        | none => (some PyErr.valueError, s1)
        | some vals =>
          let s2 : Shared := { s1 with raw := writeRow s1.raw (r * cols) vals }
          if g.gbl_counter then lockedIncr false s2
          else (some (PyErr.nameError "gbl_counter"), s2)

/-- Sequential driver: call `random` once per row index `0, 1, ..., k - 1`
with a fixed parameter, stopping at the first error. -/
def randomAll (par : ℚ) (g : Globals) : Nat → Shared → Option PyErr × Shared
  | 0, s => (none, s)
  | k + 1, s =>
    match randomAll par g k s with
    | (none, s1) => random (k : Int) par g s1
    | (some e, s1) => (some e, s1)

/-- Embedding of `scaled_sin(theta, scale)` on scalars; `np_sin` is the
external numeric library's sine.  The function is pure: it takes no
`Globals` and no `Shared` and returns only its value. -/
def scaled_sin (np_sin : ℚ → ℚ) (theta scale : ℚ) : ℚ := scale * np_sin theta

/-- Elementwise application of the library sine to an array argument. -/
def np_sin_vec (np_sin : ℚ → ℚ) (thetas : List ℚ) : List ℚ := thetas.map np_sin

/-- Elementwise multiplication of an array by a scalar. -/
def scalar_mul_vec (c : ℚ) (xs : List ℚ) : List ℚ := xs.map fun x => c * x

/-- Embedding of `scaled_sin(theta, scale)` on an array `theta`: numpy
computes `np.sin(theta)` elementwise, then scales elementwise. -/
def scaled_sin_vec (np_sin : ℚ → ℚ) (thetas : List ℚ) (scale : ℚ) : List ℚ :=
  scalar_mul_vec scale (np_sin_vec np_sin thetas)

/-- Concrete shared state for witnesses: counter 0, lock free, a 2-cell raw
buffer, and a constant Zipf stream. -/
def exShared : Shared :=
  { counterVal := 0, lockHeld := false, raw := [5, 7], rng := fun _ => 3, rngPos := 0 }

/-- Concrete worker globals for witnesses: as left by
`random_init ((2, 1), counter)` on a 2-cell buffer. -/
def exGlobals : Globals :=
  { gbl_counter := true, gbl_output := some (BufView.shaped 2 1), gbl_noutput := some 1 }

/-- Concrete worker globals for witnesses: as left by `counter_init`. -/
def exGlobalsCounter : Globals :=
  { gbl_counter := true, gbl_output := none, gbl_noutput := none }

/-! Helper lemmas about the micro-step model. -/

theorem totalPending_cons (v : Int) (lk : Option Nat) (a : Proc) (t : List Proc) :
    totalPending ⟨v, lk, a :: t⟩ = pending a.prog + totalPending ⟨v, lk, t⟩ := by
  simp [totalPending]

theorem totalPending_set (l : List Proc) :
    ∀ (i : Nat) (p q : Proc), l[i]? = some p → ∀ (v : Int) (lk : Option Nat),
      (totalPending ⟨v, lk, l.set i q⟩ : Int) + pending p.prog =
        (totalPending ⟨v, lk, l⟩ : Int) + pending q.prog := by
  induction l with
  | nil => intro i p q h; simp at h
  | cons a t ih =>
    intro i p q h v lk
    cases i with
    | zero =>
      simp at h
      subst h
      simp [List.set, totalPending_cons]
      ring
    | succ n =>
      simp at h
      have hrec := ih n p q h v lk
      simp [List.set, totalPending_cons]
      push_cast at hrec ⊢
      linarith

theorem pending_acquire (p : List Instr) : pending (Instr.acquire :: p) = pending p := by
  simp [pending, List.count_cons]

theorem pending_release (p : List Instr) : pending (Instr.release :: p) = pending p := by
  simp [pending, List.count_cons]

theorem pending_load (p : List Instr) : pending (Instr.load :: p) = pending p := by
  simp [pending, List.count_cons]

theorem pending_store (p : List Instr) : pending (Instr.store :: p) = pending p + 1 := by
  simp [pending, List.count_cons]

theorem pending_lockedProgN (n : Nat) : pending (lockedProgN n) = n := by
  induction n with
  | zero => simp [lockedProgN, pending]
  | succ m ih =>
    simp [lockedProgN, pending_acquire, pending_load, pending_store, pending_release, ih]

theorem pending_nolockProgN (n : Nat) : pending (nolockProgN n) = n := by
  induction n with
  | zero => simp [nolockProgN, pending]
  | succ m ih => simp [nolockProgN, pending_load, pending_store, ih]

theorem isLockedBlocks_nil : IsLockedBlocks [] := ⟨0, rfl⟩

theorem isLockedBlocks_cons (i : Instr) (rest : List Instr)
    (h : IsLockedBlocks (i :: rest)) :
    i = Instr.acquire ∧
      ∃ rest2, rest = Instr.load :: Instr.store :: Instr.release :: rest2 ∧
        IsLockedBlocks rest2 := by
  obtain ⟨n, hn⟩ := h
  cases n with
  | zero => simp [lockedProgN] at hn
  | succ m =>
    simp only [lockedProgN, List.cons.injEq] at hn
    obtain ⟨h1, h2⟩ := hn
    exact ⟨h1, lockedProgN m, h2, ⟨m, rfl⟩⟩

theorem isNolockBlocks_nil : IsNolockBlocks [] := ⟨0, rfl⟩

theorem isNolockBlocks_cons (i : Instr) (rest : List Instr)
    (h : IsNolockBlocks (i :: rest)) :
    i = Instr.load ∧
      ∃ rest2, rest = Instr.store :: rest2 ∧ IsNolockBlocks rest2 := by
  obtain ⟨n, hn⟩ := h
  cases n with
  | zero => simp [nolockProgN] at hn
  | succ m =>
    simp only [nolockProgN, List.cons.injEq] at hn
    obtain ⟨h1, h2⟩ := hn
    exact ⟨h1, nolockProgN m, h2, ⟨m, rfl⟩⟩

theorem totalPending_allDone (s : SysState) (h : AllDone s) : totalPending s = 0 := by
  unfold totalPending
  rw [List.sum_eq_zero]
  intro x hx
  rw [List.mem_map] at hx
  obtain ⟨p, hp, hpx⟩ := hx
  rw [← hpx, h p hp]
  simp [pending]

theorem totalPending_initLocked (v0 : Int) (ks : List Nat) :
    totalPending (initLocked v0 ks) = ks.sum := by
  simp only [initLocked, totalPending, List.map_map]
  have hfun : ((fun p : Proc => pending p.prog) ∘ fun k => (⟨lockedProgN k, 0⟩ : Proc)) =
      fun k : Nat => k := by
    funext k
    simp [pending_lockedProgN]
  rw [hfun]
  simp

theorem totalPending_initNolock (v0 : Int) (ks : List Nat) :
    totalPending (initNolock v0 ks) = ks.sum := by
  simp only [initNolock, totalPending, List.map_map]
  have hfun : ((fun p : Proc => pending p.prog) ∘ fun k => (⟨nolockProgN k, 0⟩ : Proc)) =
      fun k : Nat => k := by
    funext k
    simp [pending_nolockProgN]
  rw [hfun]
  simp

theorem run_append (s : SysState) (xs ys : List Nat) :
    run s (xs ++ ys) = run (run s xs) ys := by
  induction xs generalizing s with
  | nil => simp [run]
  | cons x t ih => simp [run, ih]

theorem invL_step (c : Int) (s : SysState) (i : Nat) (h : InvL c s) :
    InvL c (stepFn s i) := by
  obtain ⟨hsum, hlock⟩ := h
  cases hp : s.procs[i]? with
  | none =>
    have hstep : stepFn s i = s := by simp [stepFn, hp]
    rw [hstep]
    exact ⟨hsum, hlock⟩
  | some p =>
    have hilt : i < s.procs.length := (List.getElem?_eq_some.mp hp).1
    cases hprog : p.prog with
    | nil =>
      have hstep : stepFn s i = s := by simp [stepFn, hp, hprog]
      rw [hstep]
      exact ⟨hsum, hlock⟩
    | cons instr rest =>
      cases instr with
      | acquire =>
        by_cases hl : s.lock = none
        · have hstep : stepFn s i = ⟨s.value, some i, s.procs.set i ⟨rest, p.reg⟩⟩ := by
            simp [stepFn, hp, hprog, hl]
          rw [hstep]
          rcases hlock with ⟨-, hall⟩ | ⟨i2, p2, hli, -, -, -⟩
          · have hblocks := hall i p hp
            rw [hprog] at hblocks
            obtain ⟨-, rest2, hrest, hrest2⟩ := isLockedBlocks_cons _ _ hblocks
            constructor
            · have hset := totalPending_set s.procs i p ⟨rest, p.reg⟩ hp s.value (some i)
              dsimp only at hset ⊢
              rw [hprog, pending_acquire] at hset
              have heq : totalPending ⟨s.value, some i, s.procs⟩ = totalPending s := rfl
              rw [heq] at hset
              omega
            · refine Or.inr ⟨i, ⟨rest, p.reg⟩, rfl, List.getElem?_set_self hilt, ?_, ?_⟩
              · exact Or.inl ⟨rest2, by rw [hrest], hrest2⟩
              · intro j q hj hq
                rw [List.getElem?_set_ne (Ne.symm hj)] at hq
                exact hall j q hq
          · rw [hl] at hli
            exact Option.noConfusion hli
        · have hstep : stepFn s i = s := by simp [stepFn, hp, hprog, hl]
          rw [hstep]
          exact ⟨hsum, hlock⟩
      | load =>
        have hstep : stepFn s i = ⟨s.value, s.lock, s.procs.set i ⟨rest, s.value⟩⟩ := by
          simp [stepFn, hp, hprog]
        rw [hstep]
        rcases hlock with ⟨hnone, hall⟩ | ⟨i2, p2, hli, hpi, hmid, hothers⟩
        · have hblocks := hall i p hp
          rw [hprog] at hblocks
          obtain ⟨hacq, -⟩ := isLockedBlocks_cons _ _ hblocks
          exact absurd hacq (by decide)
        · by_cases hii : i = i2
          · subst hii
            have hp2 : p = p2 := by
              rw [hp] at hpi
              exact Option.some.inj hpi
            subst hp2
            rcases hmid with ⟨r1, hr1, hb1⟩ | ⟨r2, hr2, hb2, hreg⟩ | ⟨r3, hr3, hb3⟩
            · rw [hprog] at hr1
              obtain ⟨-, hrest⟩ := List.cons.injEq .. |>.mp hr1
              constructor
              · have hset := totalPending_set s.procs i p ⟨rest, s.value⟩ hp s.value s.lock
                dsimp only at hset ⊢
                rw [hprog, pending_load] at hset
                have heq : totalPending ⟨s.value, s.lock, s.procs⟩ = totalPending s := rfl
                rw [heq] at hset
                omega
              · refine Or.inr ⟨i, ⟨rest, s.value⟩, hli, List.getElem?_set_self hilt, ?_, ?_⟩
                · exact Or.inr (Or.inl ⟨r1, by rw [hrest], hb1, rfl⟩)
                · intro j q hj hq
                  rw [List.getElem?_set_ne (Ne.symm hj)] at hq
                  exact hothers j q hj hq
            · rw [hprog] at hr2
              exact absurd (List.cons.injEq .. |>.mp hr2).1 (by decide)
            · rw [hprog] at hr3
              exact absurd (List.cons.injEq .. |>.mp hr3).1 (by decide)
          · have hblocks := hothers i p hii hp
            rw [hprog] at hblocks
            obtain ⟨hacq, -⟩ := isLockedBlocks_cons _ _ hblocks
            exact absurd hacq (by decide)
      | store =>
        have hstep : stepFn s i = ⟨p.reg + 1, s.lock, s.procs.set i ⟨rest, p.reg⟩⟩ := by
          simp [stepFn, hp, hprog]
        rw [hstep]
        rcases hlock with ⟨hnone, hall⟩ | ⟨i2, p2, hli, hpi, hmid, hothers⟩
        · have hblocks := hall i p hp
          rw [hprog] at hblocks
          obtain ⟨hacq, -⟩ := isLockedBlocks_cons _ _ hblocks
          exact absurd hacq (by decide)
        · by_cases hii : i = i2
          · subst hii
            have hp2 : p = p2 := by
              rw [hp] at hpi
              exact Option.some.inj hpi
            subst hp2
            rcases hmid with ⟨r1, hr1, hb1⟩ | ⟨r2, hr2, hb2, hreg⟩ | ⟨r3, hr3, hb3⟩
            · rw [hprog] at hr1
              exact absurd (List.cons.injEq .. |>.mp hr1).1 (by decide)
            · rw [hprog] at hr2
              obtain ⟨-, hrest⟩ := List.cons.injEq .. |>.mp hr2
              constructor
              · have hset := totalPending_set s.procs i p ⟨rest, p.reg⟩ hp (p.reg + 1) s.lock
                dsimp only at hset ⊢
                rw [hprog, pending_store] at hset
                have heq : totalPending ⟨p.reg + 1, s.lock, s.procs⟩ = totalPending s := rfl
                rw [heq] at hset
                rw [hreg] at hset ⊢
                omega
              · refine Or.inr ⟨i, ⟨rest, p.reg⟩, hli, List.getElem?_set_self hilt, ?_, ?_⟩
                · exact Or.inr (Or.inr ⟨r2, by rw [hrest], hb2⟩)
                · intro j q hj hq
                  rw [List.getElem?_set_ne (Ne.symm hj)] at hq
                  exact hothers j q hj hq
            · rw [hprog] at hr3
              exact absurd (List.cons.injEq .. |>.mp hr3).1 (by decide)
          · have hblocks := hothers i p hii hp
            rw [hprog] at hblocks
            obtain ⟨hacq, -⟩ := isLockedBlocks_cons _ _ hblocks
            exact absurd hacq (by decide)
      | release =>
        by_cases hl : s.lock = some i
        · have hstep : stepFn s i = ⟨s.value, none, s.procs.set i ⟨rest, p.reg⟩⟩ := by
            simp [stepFn, hp, hprog, hl]
          rw [hstep]
          rcases hlock with ⟨hnone, hall⟩ | ⟨i2, p2, hli, hpi, hmid, hothers⟩
          · rw [hnone] at hl
            exact Option.noConfusion hl
          · have hi2 : i = i2 := by
              rw [hli] at hl
              exact (Option.some.inj hl).symm
            subst hi2
            have hp2 : p = p2 := by
              rw [hp] at hpi
              exact Option.some.inj hpi
            subst hp2
            rcases hmid with ⟨r1, hr1, hb1⟩ | ⟨r2, hr2, hb2, hreg⟩ | ⟨r3, hr3, hb3⟩
            · rw [hprog] at hr1
              exact absurd (List.cons.injEq .. |>.mp hr1).1 (by decide)
            · rw [hprog] at hr2
              exact absurd (List.cons.injEq .. |>.mp hr2).1 (by decide)
            · rw [hprog] at hr3
              obtain ⟨-, hrest⟩ := List.cons.injEq .. |>.mp hr3
              constructor
              · have hset := totalPending_set s.procs i p ⟨rest, p.reg⟩ hp s.value none
                dsimp only at hset ⊢
                rw [hprog, pending_release] at hset
                have heq : totalPending ⟨s.value, none, s.procs⟩ = totalPending s := rfl
                rw [heq] at hset
                omega
              · refine Or.inl ⟨rfl, ?_⟩
                intro j q hq
                dsimp only at hq
                by_cases hj : j = i
                · subst hj
                  rw [List.getElem?_set_self hilt] at hq
                  rw [← Option.some.inj hq]
                  rw [← hrest] at hb3
                  exact hb3
                · rw [List.getElem?_set_ne (Ne.symm hj)] at hq
                  exact hothers j q hj hq
        · have hstep : stepFn s i = s := by simp [stepFn, hp, hprog, hl]
          rw [hstep]
          exact ⟨hsum, hlock⟩

theorem invL_run (c : Int) (s : SysState) (sched : List Nat) (h : InvL c s) :
    InvL c (run s sched) := by
  induction sched generalizing s with
  | nil => exact h
  | cons x t ih => exact ih _ (invL_step c s x h)

theorem invL_init (v0 : Int) (ks : List Nat) : InvL (v0 + ks.sum) (initLocked v0 ks) := by
  constructor
  · have heq : totalPending (initLocked v0 ks) = ks.sum := totalPending_initLocked v0 ks
    dsimp only [initLocked] at heq ⊢
    rw [heq]
  · refine Or.inl ⟨rfl, ?_⟩
    intro j p hp
    simp only [initLocked] at hp
    rw [List.getElem?_map] at hp
    cases hk : ks[j]? with
    | none =>
      rw [hk] at hp
      exact Option.noConfusion hp
    | some k =>
      rw [hk] at hp
      have hp2 : (⟨lockedProgN k, 0⟩ : Proc) = p := Option.some.inj hp
      rw [← hp2]
      exact ⟨k, rfl⟩

theorem invN_step (c : Int) (s : SysState) (i : Nat) (h : InvN c s) :
    InvN c (stepFn s i) := by
  obtain ⟨hsum, hall⟩ := h
  cases hp : s.procs[i]? with
  | none =>
    have hstep : stepFn s i = s := by simp [stepFn, hp]
    rw [hstep]
    exact ⟨hsum, hall⟩
  | some p =>
    have hilt : i < s.procs.length := (List.getElem?_eq_some.mp hp).1
    cases hprog : p.prog with
    | nil =>
      have hstep : stepFn s i = s := by simp [stepFn, hp, hprog]
      rw [hstep]
      exact ⟨hsum, hall⟩
    | cons instr rest =>
      cases instr with
      | acquire =>
        rcases hall i p hp with hb | ⟨r2, hr2, -, -⟩
        · rw [hprog] at hb
          exact absurd (isNolockBlocks_cons _ _ hb).1 (by decide)
        · rw [hprog] at hr2
          exact absurd (List.cons.injEq .. |>.mp hr2).1 (by decide)
      | release =>
        rcases hall i p hp with hb | ⟨r2, hr2, -, -⟩
        · rw [hprog] at hb
          exact absurd (isNolockBlocks_cons _ _ hb).1 (by decide)
        · rw [hprog] at hr2
          exact absurd (List.cons.injEq .. |>.mp hr2).1 (by decide)
      | load =>
        have hstep : stepFn s i = ⟨s.value, s.lock, s.procs.set i ⟨rest, s.value⟩⟩ := by
          simp [stepFn, hp, hprog]
        rw [hstep]
        rcases hall i p hp with hb | ⟨r2, hr2, -, -⟩
        swap
        · rw [hprog] at hr2
          exact absurd (List.cons.injEq .. |>.mp hr2).1 (by decide)
        rw [hprog] at hb
        obtain ⟨-, rest2, hrest, hrest2⟩ := isNolockBlocks_cons _ _ hb
        have hset := totalPending_set s.procs i p ⟨rest, s.value⟩ hp s.value s.lock
        dsimp only at hset
        rw [hprog, pending_load] at hset
        have heq : totalPending ⟨s.value, s.lock, s.procs⟩ = totalPending s := rfl
        rw [heq] at hset
        constructor
        · dsimp only
          omega
        · intro j q hq
          dsimp only at hq
          by_cases hj : j = i
          · subst hj
            rw [List.getElem?_set_self hilt] at hq
            rw [← Option.some.inj hq]
            refine Or.inr ⟨rest2, by rw [hrest], hrest2, ?_⟩
            dsimp only
            omega
          · rw [List.getElem?_set_ne (Ne.symm hj)] at hq
            rcases hall j q hq with hb2 | ⟨r3, hr3, hb3, hbound⟩
            · exact Or.inl hb2
            · refine Or.inr ⟨r3, hr3, hb3, ?_⟩
              omega
      | store =>
        have hstep : stepFn s i = ⟨p.reg + 1, s.lock, s.procs.set i ⟨rest, p.reg⟩⟩ := by
          simp [stepFn, hp, hprog]
        rw [hstep]
        rcases hall i p hp with hb | ⟨r2, hr2, hb2, hbound⟩
        · rw [hprog] at hb
          exact absurd (isNolockBlocks_cons _ _ hb).1 (by decide)
        rw [hprog] at hr2
        obtain ⟨-, hrest⟩ := List.cons.injEq .. |>.mp hr2
        have hset := totalPending_set s.procs i p ⟨rest, p.reg⟩ hp (p.reg + 1) s.lock
        dsimp only at hset
        rw [hprog, pending_store] at hset
        have heq : totalPending ⟨p.reg + 1, s.lock, s.procs⟩ = totalPending s := rfl
        rw [heq] at hset
        constructor
        · dsimp only
          omega
        · intro j q hq
          dsimp only at hq
          by_cases hj : j = i
          · subst hj
            rw [List.getElem?_set_self hilt] at hq
            rw [← Option.some.inj hq]
            refine Or.inl ?_
            rw [← hrest] at hb2
            exact hb2
          · rw [List.getElem?_set_ne (Ne.symm hj)] at hq
            rcases hall j q hq with hb3 | ⟨r3, hr3, hb3, hbound3⟩
            · exact Or.inl hb3
            · refine Or.inr ⟨r3, hr3, hb3, ?_⟩
              omega

theorem invN_run (c : Int) (s : SysState) (sched : List Nat) (h : InvN c s) :
    InvN c (run s sched) := by
  induction sched generalizing s with
  | nil => exact h
  | cons x t ih => exact ih _ (invN_step c s x h)

theorem invN_init (v0 : Int) (ks : List Nat) : InvN (v0 + ks.sum) (initNolock v0 ks) := by
  constructor
  · have heq : totalPending (initNolock v0 ks) = ks.sum := totalPending_initNolock v0 ks
    dsimp only [initNolock] at heq ⊢
    rw [heq]
  · intro j p hp
    simp only [initNolock] at hp
    rw [List.getElem?_map] at hp
    cases hk : ks[j]? with
    | none =>
      rw [hk] at hp
      exact Option.noConfusion hp
    | some k =>
      rw [hk] at hp
      have hp2 : (⟨nolockProgN k, 0⟩ : Proc) = p := Option.some.inj hp
      rw [← hp2]
      exact Or.inl ⟨k, rfl⟩

theorem run_solo (j : Nat) (n : Nat) :
    ∀ (s : SysState) (p : Proc), s.procs[j]? = some p → p.prog = nolockProgN n →
      ∃ r : Int, ∃ procs2 : List Proc,
        run s (soloSched j n) = ⟨s.value + n, s.lock, procs2⟩ ∧
        procs2.length = s.procs.length ∧
        procs2[j]? = some ⟨[], r⟩ ∧
        ∀ m : Nat, m ≠ j → procs2[m]? = s.procs[m]? := by
  induction n with
  | zero =>
    intro s p hp hprog
    refine ⟨p.reg, s.procs, ?_, rfl, ?_, fun m hm => rfl⟩
    · simp [soloSched, run]
    · rw [hp]
      have hpeq : p = ⟨[], p.reg⟩ := by
        cases p with
        | mk prog reg =>
          simp only [nolockProgN] at hprog
          simp [hprog]
      rw [← hpeq]
  | succ m ih =>
    intro s p hp hprog
    rw [nolockProgN] at hprog
    have hilt : j < s.procs.length := (List.getElem?_eq_some.mp hp).1
    have h1 : stepFn s j =
        ⟨s.value, s.lock, s.procs.set j ⟨Instr.store :: nolockProgN m, s.value⟩⟩ := by
      simp [stepFn, hp, hprog]
    have hp1 : (s.procs.set j ⟨Instr.store :: nolockProgN m, s.value⟩)[j]? =
        some ⟨Instr.store :: nolockProgN m, s.value⟩ := List.getElem?_set_self hilt
    have h2 : stepFn ⟨s.value, s.lock,
        s.procs.set j ⟨Instr.store :: nolockProgN m, s.value⟩⟩ j =
        ⟨s.value + 1, s.lock,
          (s.procs.set j ⟨Instr.store :: nolockProgN m, s.value⟩).set j
            ⟨nolockProgN m, s.value⟩⟩ := by
      simp [stepFn, hp1]
    have hilt2 : j < (s.procs.set j ⟨Instr.store :: nolockProgN m, s.value⟩).length := by
      rw [List.length_set]
      exact hilt
    obtain ⟨r, procs2, hrun, hlen, hj2, hframe⟩ :=
      ih ⟨s.value + 1, s.lock,
            (s.procs.set j ⟨Instr.store :: nolockProgN m, s.value⟩).set j
              ⟨nolockProgN m, s.value⟩⟩
        ⟨nolockProgN m, s.value⟩ (List.getElem?_set_self hilt2) rfl
    refine ⟨r, procs2, ?_, ?_, hj2, ?_⟩
    · show run s (j :: j :: soloSched j m) = _
      rw [run, run, h1, h2, hrun]
      have hv : s.value + 1 + (m : Int) = s.value + ((m + 1 : Nat) : Int) := by
        push_cast
        ring
      rw [SysState.mk.injEq]
      exact ⟨hv, rfl, rfl⟩
    · rw [hlen, List.length_set, List.length_set]
    · intro m2 hm2
      rw [hframe m2 hm2]
      dsimp only
      rw [List.getElem?_set_ne (Ne.symm hm2), List.getElem?_set_ne (Ne.symm hm2)]

/-- C9: in a sequential (single-process, non-interleaved) execution after
`counter_init`, `counter` and `counter_nolock` are observationally
equivalent with respect to the counter: running any mixture `cs` of the two
calls from initial value `v0` ends with every instruction executed and the
counter at exactly `v0 + cs.length`, irrespective of which variants were
used and in which order. -/
theorem counter_variants_seq_equiv (cs : List CallKind) :
    ∀ (v0 r : Int),
      ∃ r2 : Int, run ⟨v0, none, [⟨seqProg cs, r⟩]⟩ (seqSched cs) =
        ⟨v0 + cs.length, none, [⟨[], r2⟩]⟩ := by
  induction cs with
  | nil =>
    intro v0 r
    exact ⟨r, by simp [seqProg, seqSched, run]⟩
  | cons ck t ih =>
    intro v0 r
    cases ck with
    | locked =>
      obtain ⟨r2, hrun⟩ := ih (v0 + 1) v0
      refine ⟨r2, ?_⟩
      have step4 : run ⟨v0, none, [⟨seqProg (CallKind.locked :: t), r⟩]⟩
          (seqSched (CallKind.locked :: t)) =
          run ⟨v0 + 1, none, [⟨seqProg t, v0⟩]⟩ (seqSched t) := rfl
      rw [step4, hrun, SysState.mk.injEq]
      refine ⟨?_, rfl, rfl⟩
      simp only [List.length_cons]
      push_cast
      ring
    | nolocked =>
      obtain ⟨r2, hrun⟩ := ih (v0 + 1) v0
      refine ⟨r2, ?_⟩
      have step2 : run ⟨v0, none, [⟨seqProg (CallKind.nolocked :: t), r⟩]⟩
          (seqSched (CallKind.nolocked :: t)) =
          run ⟨v0 + 1, none, [⟨seqProg t, v0⟩]⟩ (seqSched t) := rfl
      rw [step2, hrun, SysState.mk.injEq]
      refine ⟨?_, rfl, rfl⟩
      simp only [List.length_cons]
      push_cast
      ring

/-- C1: for every initial counter value `v0` and per-process call counts
`ks` (so `N = ks.sum` invocations of `counter`, the locked increment,
distributed across `ks.length` worker processes), every complete
interleaving of the micro-steps ends with the counter at exactly
`v0 + N`: the lock serializes the read-modify-write sections, so no
increment is lost. -/
theorem counter_locked_exact (v0 : Int) (ks : List Nat) (sched : List Nat)
    (hdone : AllDone (run (initLocked v0 ks) sched)) :
    (run (initLocked v0 ks) sched).value = v0 + (ks.sum : Int) := by
  have hinv := invL_run (v0 + ks.sum) (initLocked v0 ks) sched (invL_init v0 ks)
  have h0 := totalPending_allDone _ hdone
  have hs := hinv.1
  rw [h0] at hs
  simpa using hs

/-- Witness for C1: counter starting at 2, two workers doing 2 and 1 locked
increments under a contended interleaving (the second worker's first
acquire attempt is blocked), final value 2 + 3. -/
theorem counter_locked_exact_witness :
    AllDone (run (initLocked 2 [2, 1]) [0, 1, 0, 0, 0, 1, 1, 1, 1, 0, 0, 0, 0]) ∧
      (run (initLocked 2 [2, 1]) [0, 1, 0, 0, 0, 1, 1, 1, 1, 0, 0, 0, 0]).value =
        2 + (([2, 1] : List Nat).sum : Int) :=
  ⟨by decide,
   counter_locked_exact 2 [2, 1] [0, 1, 0, 0, 0, 1, 1, 1, 1, 0, 0, 0, 0] (by decide)⟩

/-- C3: `counter_nolock` performs an unsynchronized read-modify-write.
Part one: every complete interleaving of `ks.sum` unlocked increments ends
with the counter at most `v0 + ks.sum`.  Part two: with two processes each
performing at least one unlocked increment there is an interleaving that
ends strictly below `v0 + (k0 + k1)` — increments are lost when the
processes interleave their loads and stores. -/
theorem counter_nolock_bound_and_lost_updates (v0 : Int) (ks : List Nat)
    (sched : List Nat) :
    (AllDone (run (initNolock v0 ks) sched) →
      (run (initNolock v0 ks) sched).value ≤ v0 + (ks.sum : Int)) ∧
    (∀ k0 k1 : Nat, 1 ≤ k0 → 1 ≤ k1 →
      ∃ sched2 : List Nat, AllDone (run (initNolock v0 [k0, k1]) sched2) ∧
        (run (initNolock v0 [k0, k1]) sched2).value < v0 + ((k0 : Int) + (k1 : Int))) := by
  constructor
  · intro hdone
    have hinv := invN_run (v0 + ks.sum) (initNolock v0 ks) sched (invN_init v0 ks)
    have h0 := totalPending_allDone _ hdone
    have hs := hinv.1
    rw [h0] at hs
    simpa using hs
  · intro k0 k1 hk0 hk1
    obtain ⟨a, rfl⟩ : ∃ a, k0 = a + 1 := ⟨k0 - 1, by omega⟩
    have hstep0 : stepFn (initNolock v0 [a + 1, k1]) 0 =
        ⟨v0, none, [⟨Instr.store :: nolockProgN a, v0⟩, ⟨nolockProgN k1, 0⟩]⟩ := by
      simp [stepFn, initNolock, nolockProgN]
    obtain ⟨r, procs2, hrun1, hlen, hj2, hframe⟩ :=
      run_solo 1 k1 ⟨v0, none, [⟨Instr.store :: nolockProgN a, v0⟩, ⟨nolockProgN k1, 0⟩]⟩
        ⟨nolockProgN k1, 0⟩ rfl rfl
    dsimp only at hrun1 hlen hframe
    have hframe0 : procs2[0]? = some ⟨Instr.store :: nolockProgN a, v0⟩ := by
      rw [hframe 0 (by decide)]
      rfl
    have hstepC : stepFn ⟨v0 + (k1 : Int), none, procs2⟩ 0 =
        ⟨v0 + 1, none, procs2.set 0 ⟨nolockProgN a, v0⟩⟩ := by
      simp [stepFn, hframe0]
    have hlen2 : 0 < procs2.length := by
      rw [hlen]
      simp
    obtain ⟨r3, procs4, hrun2, hlen4, hj02, hframe2⟩ :=
      run_solo 0 a ⟨v0 + 1, none, procs2.set 0 ⟨nolockProgN a, v0⟩⟩
        ⟨nolockProgN a, v0⟩ (List.getElem?_set_self hlen2) rfl
    dsimp only at hrun2 hlen4 hframe2
    have hp41 : procs4[1]? = some ⟨[], r⟩ := by
      rw [hframe2 1 (by decide), List.getElem?_set_ne (by decide), hj2]
    have hchain : run (initNolock v0 [a + 1, k1])
        (0 :: (soloSched 1 k1 ++ 0 :: soloSched 0 a)) =
        ⟨v0 + 1 + (a : Int), none, procs4⟩ := by
      rw [run, hstep0, run_append, hrun1, run, hstepC, hrun2]
    refine ⟨0 :: (soloSched 1 k1 ++ 0 :: soloSched 0 a), ?_, ?_⟩
    · rw [hchain]
      intro p hpmem
      obtain ⟨ii, hii⟩ := List.getElem?_of_mem hpmem
      have hlt : ii < procs4.length := (List.getElem?_eq_some.mp hii).1
      have hl4 : procs4.length = 2 := by
        rw [hlen4, List.length_set, hlen]
        rfl
      match ii with
      | 0 =>
        rw [hj02] at hii
        rw [← Option.some.inj hii]
      | 1 =>
        rw [hp41] at hii
        rw [← Option.some.inj hii]
      | n + 2 =>
        omega
    · rw [hchain]
      dsimp only
      push_cast
      omega

/-- Witness for C3: with initial value 7 and two workers of one increment
each, the fully serialized schedule respects the bound, and with workloads
1 and 2 a lossy interleaving exists. -/
theorem counter_nolock_bound_and_lost_updates_witness :
    (run (initNolock 7 [1, 1]) [0, 0, 1, 1]).value ≤ 7 + (([1, 1] : List Nat).sum : Int) ∧
    ∃ sched2 : List Nat, AllDone (run (initNolock 7 [1, 2]) sched2) ∧
      (run (initNolock 7 [1, 2]) sched2).value < 7 + ((1 : Int) + (2 : Int)) :=
  ⟨(counter_nolock_bound_and_lost_updates 7 [1, 1] [0, 0, 1, 1]).1 (by decide),
   (counter_nolock_bound_and_lost_updates 7 [1, 2] []).2 1 2 (by decide) (by decide)⟩

/-! Helper lemmas about the state-passing embedding. -/

theorem writeRow_getElem? (raw vals : List Int) (off : Nat)
    (hoff : off + vals.length ≤ raw.length) (i : Nat) :
    (writeRow raw off vals)[i]? =
      if off ≤ i ∧ i < off + vals.length then vals[i - off]? else raw[i]? := by
  unfold writeRow
  have htl : (raw.take off).length = off := by
    rw [List.length_take]
    omega
  have htA : (raw.take off ++ vals).length = off + vals.length := by
    rw [List.length_append, htl]
  rw [List.getElem?_append]
  by_cases h2 : i < off + vals.length
  · rw [if_pos (by rw [htA]; omega), List.getElem?_append]
    by_cases h1 : i < off
    · rw [if_pos (by rw [htl]; omega), List.getElem?_take, if_pos h1, if_neg (by omega)]
    · rw [if_neg (by rw [htl]; omega), htl, if_pos (by omega)]
  · rw [if_neg (by rw [htA]; omega), htA, List.getElem?_drop, if_neg (by omega)]
    congr 1
    omega

theorem writeRow_length (raw vals : List Int) (off : Nat)
    (hoff : off + vals.length ≤ raw.length) :
    (writeRow raw off vals).length = raw.length := by
  simp [writeRow, List.length_take, List.length_drop]
  omega

theorem rowOf_getElem? (cols : Nat) (raw : List Int) (j t : Nat) (ht : t < cols) :
    (rowOf cols raw j)[t]? = raw[j * cols + t]? := by
  unfold rowOf
  rw [List.getElem?_take, if_pos ht, List.getElem?_drop]

theorem rowOf_length_le (cols : Nat) (raw : List Int) (j : Nat) :
    (rowOf cols raw j).length ≤ cols := by
  unfold rowOf
  rw [List.length_take]
  omega

theorem rowOf_length (cols : Nat) (raw : List Int) (j : Nat)
    (h : j * cols + cols ≤ raw.length) :
    (rowOf cols raw j).length = cols := by
  unfold rowOf
  rw [List.length_take, List.length_drop]
  omega

theorem rowOf_writeRow_same (raw vals : List Int) (cols r : Nat)
    (hv : vals.length = cols) (hoff : r * cols + cols ≤ raw.length) :
    rowOf cols (writeRow raw (r * cols) vals) r = vals := by
  apply List.ext_getElem?
  intro t
  by_cases ht : t < cols
  · rw [rowOf_getElem? _ _ _ _ ht, writeRow_getElem? _ _ _ (by omega), if_pos (by omega)]
    congr 1
    omega
  · rw [List.getElem?_eq_none_iff.mpr, List.getElem?_eq_none_iff.mpr (by omega)]
    have := rowOf_length_le cols (writeRow raw (r * cols) vals) r
    omega

theorem rowOf_writeRow_other (raw vals : List Int) (cols r j : Nat)
    (hv : vals.length = cols) (hoff : r * cols + cols ≤ raw.length) (hj : j ≠ r) :
    rowOf cols (writeRow raw (r * cols) vals) j = rowOf cols raw j := by
  apply List.ext_getElem?
  intro t
  by_cases ht : t < cols
  · rw [rowOf_getElem? _ _ _ _ ht, rowOf_getElem? _ _ _ _ ht,
      writeRow_getElem? _ _ _ (by omega), if_neg ?_]
    rintro ⟨h1, h2⟩
    rcases Nat.lt_or_ge j r with hjr | hjr
    · have hmul : (j + 1) * cols ≤ r * cols := mul_le_mul_right' (by omega) cols
      have : j * cols + t < (j + 1) * cols := by
        have : (j + 1) * cols = j * cols + cols := by ring
        omega
      omega
    · have hjr2 : r < j := by omega
      have hmul : (r + 1) * cols ≤ j * cols := mul_le_mul_right' (by omega) cols
      have : (r + 1) * cols = r * cols + cols := by ring
      omega
  · have hle1 := rowOf_length_le cols (writeRow raw (r * cols) vals) j
    have hle2 := rowOf_length_le cols raw j
    rw [List.getElem?_eq_none_iff.mpr (by omega), List.getElem?_eq_none_iff.mpr (by omega)]

theorem zipfSamples_length (s : Shared) (n : Nat) : (zipfSamples s n).length = n := by
  simp [zipfSamples]

theorem zipfSamples_pos (s : Shared) (n : Nat) (hs : ∀ k, 1 ≤ s.rng k) :
    ∀ x ∈ zipfSamples s n, 1 ≤ x := by
  intro x hx
  simp only [zipfSamples, List.mem_map, List.mem_range] at hx
  obtain ⟨k, -, hk⟩ := hx
  rw [← hk]
  exact hs _

theorem broadcastTo_of_length_eq (cols : Nat) (xs : List Int) (h : xs.length = cols) :
    broadcastTo cols xs = some xs := by
  unfold broadcastTo
  rw [if_pos h]

theorem resolveIdx_natCast (rows idx : Nat) (h : idx < rows) :
    resolveIdx rows (idx : Int) = some idx := by
  unfold resolveIdx
  rw [if_pos (Int.natCast_nonneg idx), if_pos (by exact_mod_cast h)]
  simp

theorem resolveIdx_neg (rows : Nat) (idx : Int) (h1 : -(rows : Int) ≤ idx) (h2 : idx < 0) :
    resolveIdx rows idx = some ((rows : Int) + idx).toNat := by
  unfold resolveIdx
  rw [if_neg (by omega), if_pos h1]

theorem resolveIdx_none (rows : Nat) (idx : Int)
    (h : idx < -(rows : Int) ∨ (rows : Int) ≤ idx) :
    resolveIdx rows idx = none := by
  unfold resolveIdx
  rcases h with h | h
  · rw [if_neg (by omega), if_neg (by omega)]
  · rw [if_pos (by omega), if_neg (by omega)]

theorem random_of_resolved (idx : Int) (par : ℚ) (R C : Nat) (g : Globals) (s : Shared)
    (r : Nat) (hg : g.gbl_output = some (BufView.shaped R C)) (hn : g.gbl_noutput = some C)
    (hres : resolveIdx R idx = some r) :
    (random idx par g s).2.raw = writeRow s.raw (r * C) (zipfSamples s C) ∧
    (random idx par g s).1 ≠ some PyErr.indexError := by
  cases hgc : g.gbl_counter <;>
    simp [random, lockedIncr, hn, hg, hres, hgc,
      broadcastTo_of_length_eq _ _ (zipfSamples_length s C)]

theorem random_of_unresolved (idx : Int) (par : ℚ) (R C : Nat) (g : Globals) (s : Shared)
    (hg : g.gbl_output = some (BufView.shaped R C)) (hn : g.gbl_noutput = some C)
    (hres : resolveIdx R idx = none) :
    random idx par g s = (some PyErr.indexError, { s with rngPos := s.rngPos + C }) := by
  simp [random, hn, hg, hres]

theorem random_success (idx : Nat) (par : ℚ) (R C : Nat) (g : Globals) (s : Shared)
    (hgc : g.gbl_counter = true) (hg : g.gbl_output = some (BufView.shaped R C))
    (hn : g.gbl_noutput = some C) (hidx : idx < R) :
    random (idx : Int) par g s =
      (none,
       { counterVal := s.counterVal + 1, lockHeld := false,
         raw := writeRow s.raw (idx * C) (zipfSamples s C),
         rng := s.rng, rngPos := s.rngPos + C }) := by
  simp [random, lockedIncr, hn, hg, hgc, resolveIdx_natCast R idx hidx,
    broadcastTo_of_length_eq _ _ (zipfSamples_length s C)]

theorem randomAll_inv (par : ℚ) (R C : Nat) (g : Globals) (s : Shared)
    (hgc : g.gbl_counter = true) (hg : g.gbl_output = some (BufView.shaped R C))
    (hn : g.gbl_noutput = some C) (hlen : s.raw.length = R * C)
    (hrng : ∀ k, 1 ≤ s.rng k) :
    ∀ k : Nat, k ≤ R →
      ∃ s1 : Shared, randomAll par g k s = (none, s1) ∧
        s1.counterVal = s.counterVal + k ∧
        s1.raw.length = R * C ∧
        s1.rng = s.rng ∧
        ∀ j : Nat, j < k →
          (rowOf C s1.raw j).length = C ∧ ∀ x ∈ rowOf C s1.raw j, 1 ≤ x := by
  intro k
  induction k with
  | zero =>
    intro _
    exact ⟨s, rfl, by simp, hlen, rfl, fun j hj => absurd hj (by omega)⟩
  | succ m ih =>
    intro hm
    obtain ⟨s1, hrun, hcnt, hlen1, hrng1, hrows⟩ := ih (by omega)
    have hsucc := random_success m par R C g s1 hgc hg hn (by omega)
    have hbound : m * C + C ≤ s1.raw.length := by
      rw [hlen1]
      have h1 : (m + 1) * C ≤ R * C := mul_le_mul_right' (by omega) C
      have h2 : (m + 1) * C = m * C + C := by ring
      omega
    refine ⟨{ counterVal := s1.counterVal + 1, lockHeld := false,
              raw := writeRow s1.raw (m * C) (zipfSamples s1 C),
              rng := s1.rng, rngPos := s1.rngPos + C }, ?_, ?_, ?_, ?_, ?_⟩
    · simp only [randomAll, hrun]
      exact hsucc
    · dsimp only
      push_cast
      omega
    · dsimp only
      rw [writeRow_length _ _ _ (by rw [zipfSamples_length]; exact hbound)]
      exact hlen1
    · dsimp only
      exact hrng1
    · intro j hj
      dsimp only
      by_cases hjm : j = m
      · subst hjm
        rw [rowOf_writeRow_same _ _ _ _ (zipfSamples_length s1 C) hbound]
        refine ⟨zipfSamples_length s1 C, ?_⟩
        exact zipfSamples_pos s1 C (fun k2 => by rw [hrng1]; exact hrng k2)
      · rw [rowOf_writeRow_other _ _ _ _ _ (zipfSamples_length s1 C) hbound hjm]
        exact hrows j (by omega)

/-- C2: a single call `counter arg` with the counter installed releases the
mutual-exclusion lock on every exit path — including when the increment
itself fails — and, when the increment does not fail, increments the
counter by exactly 1 and returns no error; `arg` has no effect on the
result.  The last conjunct records the micro-step structure of the call:
the increment is bracketed by `acquire` and `release` of the lock. -/
theorem counter_increments_once_releases_lock (a b : Int) (incFails : Bool)
    (g : Globals) (s : Shared) (hgc : g.gbl_counter = true) :
    (counter a incFails g s).2.lockHeld = false ∧
    (incFails = false → (counter a incFails g s).1 = none ∧
      (counter a incFails g s).2.counterVal = s.counterVal + 1) ∧
    (incFails = true → (counter a incFails g s).1 = some PyErr.incrementError ∧
      (counter a incFails g s).2.counterVal = s.counterVal ∧
      (counter a incFails g s).2.lockHeld = false) ∧
    counter a incFails g s = counter b incFails g s ∧
    callProg CallKind.locked = [Instr.acquire, Instr.load, Instr.store, Instr.release] := by
  cases incFails <;> simp [counter, lockedIncr, hgc, callProg]

/-- Witness for C2: on a concrete worker state, the call increments by one,
releases the lock on both the normal and the failing path, and ignores its
argument. -/
theorem counter_increments_once_releases_lock_witness :
    (counter 5 false exGlobalsCounter exShared).2.lockHeld = false ∧
    (counter 5 false exGlobalsCounter exShared).2.counterVal = exShared.counterVal + 1 ∧
    (counter 5 true exGlobalsCounter exShared).2.lockHeld = false ∧
    counter 5 false exGlobalsCounter exShared = counter 11 false exGlobalsCounter exShared :=
  ⟨(counter_increments_once_releases_lock 5 11 false exGlobalsCounter exShared rfl).1,
   ((counter_increments_once_releases_lock 5 11 false exGlobalsCounter exShared rfl).2.1 rfl).2,
   ((counter_increments_once_releases_lock 5 11 true exGlobalsCounter exShared rfl).2.2.1 rfl).2.2,
   (counter_increments_once_releases_lock 5 11 false exGlobalsCounter exShared rfl).2.2.2.1⟩

/-- C4: with the globals as installed by `random_init` for a shape-`(R, C)`
buffer and the counter at 0, `random idx par` at a valid row index returns
no error, writes exactly the next `C` Zipf samples (each `≥ 1` by the
library contract on the stream) into row `idx`, and increments the counter
by 1; calling it once per row index `0..R-1` fills every row with `C`
values `≥ 1` and leaves the counter at exactly `R`. -/
theorem random_fills_rows_and_counts (par : ℚ) (R C : Nat) (g : Globals) (s : Shared)
    (hgc : g.gbl_counter = true) (hg : g.gbl_output = some (BufView.shaped R C))
    (hn : g.gbl_noutput = some C) (hlen : s.raw.length = R * C)
    (hrng : ∀ k, 1 ≤ s.rng k) (hcnt : s.counterVal = 0) :
    (∀ idx : Nat, idx < R →
      (random (idx : Int) par g s).1 = none ∧
      rowOf C (random (idx : Int) par g s).2.raw idx = zipfSamples s C ∧
      (zipfSamples s C).length = C ∧
      (∀ x ∈ zipfSamples s C, 1 ≤ x) ∧
      (random (idx : Int) par g s).2.counterVal = s.counterVal + 1) ∧
    ((randomAll par g R s).1 = none ∧
     (randomAll par g R s).2.counterVal = R ∧
     ∀ j : Nat, j < R →
       (rowOf C (randomAll par g R s).2.raw j).length = C ∧
       ∀ x ∈ rowOf C (randomAll par g R s).2.raw j, 1 ≤ x) := by
  constructor
  · intro idx hidx
    have hsucc := random_success idx par R C g s hgc hg hn hidx
    have hbound : idx * C + C ≤ s.raw.length := by
      rw [hlen]
      have h1 : (idx + 1) * C ≤ R * C := mul_le_mul_right' (by omega) C
      have h2 : (idx + 1) * C = idx * C + C := by ring
      omega
    rw [hsucc]
    exact ⟨rfl, rowOf_writeRow_same _ _ _ _ (zipfSamples_length s C) hbound,
      zipfSamples_length s C, zipfSamples_pos s C hrng, rfl⟩
  · obtain ⟨s1, hrun, hcnt1, -, -, hrows⟩ :=
      randomAll_inv par R C g s hgc hg hn hlen hrng R (le_refl R)
    rw [hrun]
    refine ⟨rfl, ?_, hrows⟩
    rw [hcnt1, hcnt]
    simp

/-- Witness for C4: a 2-by-1 buffer with the constant Zipf stream 3; after
one call per row the counter is exactly 2 and no error occurred. -/
theorem random_fills_rows_and_counts_witness :
    (randomAll 2 exGlobals 2 exShared).1 = none ∧
    (randomAll 2 exGlobals 2 exShared).2.counterVal = ((2 : Nat) : Int) :=
  ⟨(random_fills_rows_and_counts 2 2 1 exGlobals exShared rfl rfl rfl (by decide)
      (fun k => by norm_num [exShared]) rfl).2.1,
   (random_fills_rows_and_counts 2 2 1 exGlobals exShared rfl rfl rfl (by decide)
      (fun k => by norm_num [exShared]) rfl).2.2.1⟩

/-- C5: `random idx par` at a valid row index modifies only row `idx` of
the shared buffer: every other row has exactly the same contents after the
call as before it (the counter and random-stream cursor change, but no cell
outside row `idx`). -/
theorem random_touches_only_its_row (idx : Nat) (par : ℚ) (R C : Nat) (g : Globals)
    (s : Shared) (hg : g.gbl_output = some (BufView.shaped R C))
    (hn : g.gbl_noutput = some C) (hlen : s.raw.length = R * C) (hidx : idx < R) :
    ∀ j : Nat, j < R → j ≠ idx →
      rowOf C (random (idx : Int) par g s).2.raw j = rowOf C s.raw j := by
  intro j hj hji
  have hres : resolveIdx R (idx : Int) = some idx := resolveIdx_natCast R idx hidx
  have hraw := (random_of_resolved (idx : Int) par R C g s idx hg hn hres).1
  rw [hraw]
  have hbound : idx * C + C ≤ s.raw.length := by
    rw [hlen]
    have h1 : (idx + 1) * C ≤ R * C := mul_le_mul_right' (by omega) C
    have h2 : (idx + 1) * C = idx * C + C := by ring
    omega
  exact rowOf_writeRow_other _ _ _ _ _ (zipfSamples_length s C) hbound hji

/-- Witness for C5: writing row 0 of the 2-by-1 buffer leaves row 1 as it
was. -/
theorem random_touches_only_its_row_witness :
    rowOf 1 (random ((0 : Nat) : Int) 2 exGlobals exShared).2.raw 1 =
      rowOf 1 exShared.raw 1 :=
  random_touches_only_its_row 0 2 2 1 exGlobals exShared rfl rfl (by decide) (by decide)
    1 (by decide) (by decide)

/-- C6: in a worker whose initializer has not run (`initialGlobals`), each
of `counter`, `counter_nolock` and `random` fails with an
uninitialized-reference (`NameError`) naming the missing module global, the
error is not caught locally (it is returned to the caller), and the shared
state is left untouched. -/
theorem uninitialized_calls_raise_nameError (a idx : Int) (incFails : Bool) (par : ℚ)
    (s : Shared) :
    counter a incFails initialGlobals s = (some (PyErr.nameError "gbl_counter"), s) ∧
    counter_nolock a initialGlobals s = (some (PyErr.nameError "gbl_counter"), s) ∧
    random idx par initialGlobals s = (some (PyErr.nameError "gbl_noutput"), s) := by
  refine ⟨?_, ?_, ?_⟩ <;> simp [counter, counter_nolock, random, initialGlobals]

/-- C7 counterexample: the claim says every `idx` outside the valid row
range `0..R-1`, including negative values, surfaces an out-of-bounds error.
On a 2-row buffer, `random (-1) par` is such an out-of-range call, yet it
raises no error at all: numpy wraps the negative index and the call writes
the last row (the buffer `[5, 7]` becomes `[5, 3]`) and increments the
counter. -/
theorem random_negative_idx_no_error :
    ((-1 : Int) < 0) ∧
    (random (-1) 2 exGlobals exShared).1 = none ∧
    (random (-1) 2 exGlobals exShared).2.raw = [5, 3] := by
  exact ⟨by decide, rfl, rfl⟩

/-- C7 amended: `random idx par` surfaces an `IndexError` from the buffer
exactly when `idx` is outside numpy's valid index range `[-R, R)` for the
first dimension — not for every negative `idx`: a negative `idx` in
`[-R, 0)` wraps around and writes row `R + idx`.  On the error path the
buffer is unchanged (the error propagates uncaught; the random stream has
already advanced because the right-hand side is evaluated first). -/
theorem random_index_error_iff (idx : Int) (par : ℚ) (R C : Nat) (g : Globals)
    (s : Shared) (hg : g.gbl_output = some (BufView.shaped R C))
    (hn : g.gbl_noutput = some C) (hlen : s.raw.length = R * C) :
    ((random idx par g s).1 = some PyErr.indexError ↔
      (idx < -(R : Int) ∨ (R : Int) ≤ idx)) ∧
    (idx < -(R : Int) ∨ (R : Int) ≤ idx → (random idx par g s).2.raw = s.raw) ∧
    (-(R : Int) ≤ idx → idx < 0 →
      rowOf C (random idx par g s).2.raw ((R : Int) + idx).toNat = zipfSamples s C) := by
  refine ⟨⟨?_, ?_⟩, ?_, ?_⟩
  · intro herr
    by_contra hout
    push_neg at hout
    obtain ⟨h1, h2⟩ := hout
    have hres : ∃ r, resolveIdx R idx = some r := by
      unfold resolveIdx
      by_cases h0 : 0 ≤ idx
      · exact ⟨idx.toNat, by rw [if_pos h0, if_pos (by omega)]⟩
      · exact ⟨((R : Int) + idx).toNat, by rw [if_neg h0, if_pos (by omega)]⟩
    obtain ⟨r, hres⟩ := hres
    exact (random_of_resolved idx par R C g s r hg hn hres).2 herr
  · intro hout
    rw [random_of_unresolved idx par R C g s hg hn (resolveIdx_none R idx hout)]
  · intro hout
    rw [random_of_unresolved idx par R C g s hg hn (resolveIdx_none R idx hout)]
  · intro h1 h2
    have hres := resolveIdx_neg R idx h1 h2
    have hraw := (random_of_resolved idx par R C g s _ hg hn hres).1
    rw [hraw]
    apply rowOf_writeRow_same _ _ _ _ (zipfSamples_length s C)
    have htn : ((R : Int) + idx).toNat < R := by omega
    rw [hlen]
    have hb1 : (((R : Int) + idx).toNat + 1) * C ≤ R * C := mul_le_mul_right' (by omega) C
    have hb2 : (((R : Int) + idx).toNat + 1) * C = ((R : Int) + idx).toNat * C + C := by
      ring
    omega

/-- Witness for C7 (amended): on the 2-by-1 buffer, `idx = 5` raises
`IndexError` and leaves the buffer unchanged, while `idx = -1` wraps to the
last row and writes the drawn samples there. -/
theorem random_index_error_iff_witness :
    (random 5 2 exGlobals exShared).1 = some PyErr.indexError ∧
    (random 5 2 exGlobals exShared).2.raw = exShared.raw ∧
    rowOf 1 (random (-1) 2 exGlobals exShared).2.raw (((2 : Nat) : Int) + (-1)).toNat =
      zipfSamples exShared 1 :=
  ⟨(random_index_error_iff 5 2 2 1 exGlobals exShared rfl rfl (by decide)).1.mpr
      (by decide),
   (random_index_error_iff 5 2 2 1 exGlobals exShared rfl rfl (by decide)).2.1
      (by decide),
   (random_index_error_iff (-1) 2 2 1 exGlobals exShared rfl rfl (by decide)).2.2
      (by decide) (by decide)⟩

/-- C8: `scaled_sin theta scale` returns `scale * sin theta`, elementwise on
array arguments; the function is pure — it takes no worker globals and no
shared state and returns only its value, so it can have no side effects. -/
theorem scaled_sin_elementwise (np_sin : ℚ → ℚ) (theta scale : ℚ) (thetas : List ℚ) :
    scaled_sin np_sin theta scale = scale * np_sin theta ∧
    ∀ i : Nat, (scaled_sin_vec np_sin thetas scale)[i]? =
      (thetas[i]?).map fun t => scale * np_sin t := by
  refine ⟨rfl, fun i => ?_⟩
  simp only [scaled_sin_vec, scalar_mul_vec, np_sin_vec, List.getElem?_map]
  cases thetas[i]? <;> rfl

/-- C10: `random_init` leaves every shared resource — in particular every
cell of the buffer — exactly as it was: it performs no zeroing and no data
initialization.  It only installs the worker-local globals: the counter
reference, the reshaped 2-D view, and the cached column count. -/
theorem random_init_installs_without_writing (shape : Nat × Nat) (g : Globals)
    (s : Shared) :
    (random_init shape g s).2.2 = s ∧
    (s.raw.length = shape.1 * shape.2 →
      (random_init shape g s).2.1 =
        ⟨true, some (BufView.shaped shape.1 shape.2), some shape.2⟩ ∧
      (random_init shape g s).1 = none) := by
  unfold random_init
  by_cases h : s.raw.length = shape.1 * shape.2
  · simp [h]
  · simp [h]

/-- Witness for C10: initializing on the concrete 2-cell buffer changes no
shared state and installs exactly the expected globals. -/
theorem random_init_installs_without_writing_witness :
    (random_init (2, 1) initialGlobals exShared).2.2 = exShared ∧
    (random_init (2, 1) initialGlobals exShared).2.1 =
      ⟨true, some (BufView.shaped 2 1), some 1⟩ :=
  ⟨(random_init_installs_without_writing (2, 1) initialGlobals exShared).1,
   ((random_init_installs_without_writing (2, 1) initialGlobals exShared).2
      (by decide)).1⟩

end Pyastro16
